import Mathlib

/-!
# Verification of the PyCurvelabLops slice-iteration and vector-layout core

Shallow embedding of `pyctlops.py` (classes `FDCT`, `FDCT2D`, `FDCT3D`).
N-dimensional numpy arrays are modelled as flat row-major `List`s together
with an explicit shape; the external curvelet backend (`pyct.fdct2` /
`pyct.fdct3`) is an abstract collaborator supplying `sizes`, `fwd` and `inv`.
-/

namespace PyctLops

/-- Numeric dtypes relevant to the adapter (`np.dtype(dtype)`). -/
inductive DType
  | float32
  | float64
  | complex64
  | complex128
deriving DecidableEq, Repr

/-- `np.issubdtype(dtype, np.complexfloating)`. -/
def DType.isComplex : DType → Bool
  | DType.complex64 => true
  | DType.complex128 => true
  | _ => false

/-- Failures signalled during construction:
`invalidAxisCount` models the `NotImplementedError` of `FDCT.__init__`
(and the `ValueError` of `FDCT2D.__init__`/`FDCT3D.__init__`);
`axisOutOfRange` models the `numpy.AxisError` raised by
`np.core.multiarray.normalize_axis_index`; `duplicateAxis` is the failure
the specification's error taxonomy names for repeated axes. -/
inductive FdctError
  | invalidAxisCount
  | axisOutOfRange
  | duplicateAxis
deriving DecidableEq, Repr

/-- `np.core.multiarray.normalize_axis_index(d, ndim)`: raises `AxisError`
unless `-ndim <= d < ndim`, and adds `ndim` to negative entries. -/
def normalizeAxisIndex (d : Int) (ndim : Nat) : Except FdctError Nat :=
  if d < -(ndim : Int) ∨ (ndim : Int) ≤ d then
    Except.error FdctError.axisOutOfRange
  else if d < 0 then
    Except.ok (d + (ndim : Int)).toNat
  else
    Except.ok d.toNat

/-- The list comprehension
`[np.core.multiarray.normalize_axis_index(d, ndim) for d in dirs]`,
stopping at the first entry that raises. -/
def normalizeAxes (ndim : Nat) : List Int → Except FdctError (List Nat)
  | [] => Except.ok []
  | d :: rest =>
    match normalizeAxisIndex d ndim with
    | Except.error e => Except.error e
    | Except.ok a =>
      match normalizeAxes ndim rest with
      | Except.error e => Except.error e
      | Except.ok as => Except.ok (a :: as)

/-- Abstract curvelet backend (one `pyct.fdct2`/`pyct.fdct3` instance):
`sizes` is the nested band-shape report `FDCT.sizes`, `fwd`/`inv` the
forward and inverse transforms on flat row-major data. -/
structure Backend (α : Type) where
  sizes : List (List (List Nat))
  fwd : List α → List α
  inv : List α → List α

/-- `sum(np.prod(j) for i in self.FDCT.sizes for j in i)`:
the per-slice coefficient count. -/
def Backend.outputLen {α : Type} (B : Backend α) : Nat :=
  (B.sizes.map (fun i => (i.map (fun j => j.prod)).sum)).sum

/-- One component of a multi-dimensional index expression:
`idx k` is a concrete batch-axis index, `all` is `slice(None)` (the colon). -/
inductive IndexEntry
  | idx : Nat → IndexEntry
  | all
deriving DecidableEq, Repr

/-- `itertools.product`: the Cartesian product of the per-axis choice lists,
with the last component varying fastest. -/
def cartProd {α : Type} : List (List α) → List (List α)
  | [] => [[]]
  | xs :: rest => xs.flatMap (fun x => (cartProd rest).map (fun t => x :: t))

/-- Per-axis choice lists:
`iterable_axes = [False if i in dirs else True for i in range(ndim)]` and
`range(dims[ax]) if doiter else [slice(None)]` for each axis `ax`. -/
def axisChoices (dims : List Nat) (dirs : List Nat) : List (List IndexEntry) :=
  (List.range dims.length).map (fun ax =>
    if dirs.contains ax then [IndexEntry.all]
    else (List.range (dims.getD ax 0)).map IndexEntry.idx)

/-- The iterator built in `FDCT.__init__`:
`product(*(range(dims[ax]) if doiter else [slice(None)] for ax, doiter in
enumerate(iterable_axes)))`. -/
def buildIterator (dims : List Nat) (dirs : List Nat) : List (List IndexEntry) :=
  cartProd (axisChoices dims dirs)

/-- The batch (iterated) axes: positions where `iterable_axes` is `True`,
i.e. the ascending complement of `dirs` within `[0, ndim)`. -/
def batchAxes (ndim : Nat) (dirs : List Nat) : List Nat :=
  (List.range ndim).filter (fun i => ! dirs.contains i)

/-- `ndim_iterable = np.prod(np.array(dims)[iterable_axes])`:
the product of `dims` over the batch axes (`1` when there are none). -/
def batchCount (dims : List Nat) (dirs : List Nat) : Nat :=
  ((batchAxes dims.length dirs).map (fun i => dims.getD i 0)).prod

/-- Flat row-major extraction of `volume[index]` for a numpy basic-indexing
tuple mixing concrete indices and colons, over a volume of shape `dims`. -/
def sliceExtract {α : Type} : List Nat → List IndexEntry → List α → List α
  | _ :: ds, IndexEntry.idx k :: rest, data =>
    sliceExtract ds rest ((data.drop (k * ds.prod)).take ds.prod)
  | d :: ds, IndexEntry.all :: rest, data =>
    (List.range d).flatMap (fun j =>
      sliceExtract ds rest ((data.drop (j * ds.prod)).take ds.prod))
  | _, _, data => data

/-- Number of scalars selected by an index expression on shape `dims`
(the flat length of `volume[index]`). -/
def extractLen : List Nat → List IndexEntry → Nat
  | _ :: ds, IndexEntry.idx _ :: rest => extractLen ds rest
  | d :: ds, IndexEntry.all :: rest => d * extractLen ds rest
  | _, _ => 1

/-- Well-formedness of an index expression against a shape: one entry per
axis, with every concrete index within bounds. -/
def wfIndex : List Nat → List IndexEntry → Prop
  | d :: ds, IndexEntry.idx k :: rest => k < d ∧ wfIndex ds rest
  | _ :: ds, IndexEntry.all :: rest => wfIndex ds rest
  | [], [] => True
  | _, _ => False

/-- Flat row-major assignment `volume[index] = vals` over shape `dims`. -/
def sliceAssign {α : Type} : List Nat → List IndexEntry → List α → List α → List α
  | _ :: ds, IndexEntry.idx k :: rest, vol, vals =>
    vol.take (k * ds.prod)
      ++ sliceAssign ds rest ((vol.drop (k * ds.prod)).take ds.prod) vals
      ++ vol.drop ((k + 1) * ds.prod)
  | d :: ds, IndexEntry.all :: rest, vol, vals =>
    (List.range d).flatMap (fun j =>
      sliceAssign ds rest ((vol.drop (j * ds.prod)).take ds.prod)
        ((vals.drop (j * extractLen ds rest)).take (extractLen ds rest)))
  | _, _, _, vals => vals

/-- The 1-D buffer assignment `buf[lo:hi] = vals`
(meaningful when `vals.length = hi - lo` and `hi ≤ buf.length`). -/
def assignSeg {α : Type} (buf : List α) (lo hi : Nat) (vals : List α) : List α :=
  buf.take lo ++ vals ++ buf.drop hi

/-- The contiguous output segment `v[i*n:(i+1)*n]`. -/
def segment {α : Type} (v : List α) (i n : Nat) : List α :=
  (v.drop (i * n)).take n

/-- The index set `[i*n, (i+1)*n)` occupied by slice `i`. -/
def segSet (i n : Nat) : Finset Nat :=
  Finset.Ico (i * n) ((i + 1) * n)

/-- A flat numpy array: a dtype tag together with row-major data. -/
structure NDVec (α : Type) where
  dtype : DType
  data : List α

/-- The ambient numeric semantics of numpy that the adapter relies on:
`zeroOf dt` is the scalar `np.zeros` fills with, `castTo dt v` is the cast
applied when a value is stored into a buffer of dtype `dt`. -/
structure NpModel (α : Type) where
  zeroOf : DType → α
  castTo : DType → α → α

/-- State of a constructed `FDCT` operator (the attributes saved by
`FDCT.__init__`). -/
structure FDCT (α : Type) where
  dims : List Nat
  /-- the normalized `dirs` -/
  dirs : List Nat
  /-- `self._input_shape_2d = list(dims[d] for d in dirs)` -/
  inputShape2d : List Nat
  /-- `self.FDCT`, the backend transform handle -/
  fdct : Backend α
  /-- `self._iterator` -/
  iterator : List (List IndexEntry)
  /-- `self._output_len` -/
  outputLen : Nat
  nbscales : Int
  nbanglesCoarse : Nat
  allcurvelets : Bool
  cpx : Bool
  /-- `self.shape = (ndim_iterable * self._output_len, np.prod(dims))` -/
  shape : Nat × Nat
  dtype : DType

/-- `nbscales = int(np.ceil(np.log2(min(self._input_shape_2d)) - 3))`.
For a positive integer `m`, `np.ceil(np.log2(m))` equals `Nat.clog 2 m`,
so the default is `Nat.clog 2 (min shape) - 3`. -/
def defaultNbscales (shape : List Nat) : Int :=
  (Nat.clog 2 (shape.foldr Nat.min (shape.headD 0)) : Int) - 3

/-- The record assembled at the end of `FDCT.__init__` once `dirs` has been
normalized to `ndirs`; `mkBackend` abstracts `ct.fdct2`/`ct.fdct3` (its first
argument is `len(dirs)`, selecting which of the two is used). -/
def mkFDCT {α : Type} (mkBackend : Nat → List Nat → Int → Nat → Bool → Bool → Backend α)
    (dims : List Nat) (dirsLen : Nat) (ndirs : List Nat) (nbscales : Option Int)
    (nbanglesCoarse : Nat) (allcurvelets : Bool) (dtype : DType) : FDCT α :=
  let inputShape2d := ndirs.map (fun d => dims.getD d 0)
  let nbs := nbscales.getD (defaultNbscales inputShape2d)
  let cpx := dtype.isComplex
  let B := mkBackend dirsLen inputShape2d nbs nbanglesCoarse allcurvelets cpx
  { dims := dims
    dirs := ndirs
    inputShape2d := inputShape2d
    fdct := B
    iterator := buildIterator dims ndirs
    outputLen := B.outputLen
    nbscales := nbs
    nbanglesCoarse := nbanglesCoarse
    allcurvelets := allcurvelets
    cpx := cpx
    shape := (batchCount dims ndirs * B.outputLen, dims.prod)
    dtype := dtype }

/-- `FDCT.__init__(dims, dirs, nbscales, nbangles_coarse, allcurvelets, dtype)`:
checks the axis count first (`NotImplementedError` otherwise), then normalizes
`dirs` (which may raise `AxisError`), then builds the backend, the iterator
and the operator shape. -/
def fdctInit {α : Type} (mkBackend : Nat → List Nat → Int → Nat → Bool → Bool → Backend α)
    (dims : List Nat) (dirs : List Int) (nbscales : Option Int) (nbanglesCoarse : Nat)
    (allcurvelets : Bool) (dtype : DType) : Except FdctError (FDCT α) :=
  if dirs.length = 2 ∨ dirs.length = 3 then
    match normalizeAxes dims.length dirs with
    | Except.error e => Except.error e
    | Except.ok ndirs =>
      Except.ok (mkFDCT mkBackend dims dirs.length ndirs nbscales nbanglesCoarse
        allcurvelets dtype)
  else
    Except.error FdctError.invalidAxisCount

/-- The loop of `FDCT._matvec`:
`for i, index in enumerate(self._iterator):
  fwd_out[i*n:(i+1)*n] = self.FDCT.fwd(x.reshape(self.dims)[index])`. -/
def matvecLoop {α : Type} (op : FDCT α) (M : NpModel α) (x : List α) :
    Nat → List (List IndexEntry) → List α → List α
  | _, [], buf => buf
  | i, index :: rest, buf =>
    matvecLoop op M x (i + 1) rest
      (assignSeg buf (i * op.outputLen) ((i + 1) * op.outputLen)
        ((op.fdct.fwd (sliceExtract op.dims index x)).map (M.castTo op.dtype)))

/-- `FDCT._matvec`: allocates `np.zeros(self.shape[0], dtype=self.dtype)` and
fills one segment per slice (storing into the buffer casts to its dtype). -/
def FDCT.matvec {α : Type} (op : FDCT α) (M : NpModel α) (x : NDVec α) : NDVec α :=
  NDVec.mk op.dtype
    (matvecLoop op M x.data 0 op.iterator (List.replicate op.shape.1 (M.zeroOf op.dtype)))

/-- The loop of `FDCT._rmatvec`:
`for i, index in enumerate(self._iterator):
  inv_out[index] = self.FDCT.inv(x[i*n:(i+1)*n]).reshape(self._input_shape_2d)`.
On flat row-major data the `reshape` is the identity, and the assignment casts
to the dtype of `inv_out`. -/
def rmatvecLoop {α : Type} (op : FDCT α) (M : NpModel α) (x : List α) :
    Nat → List (List IndexEntry) → List α → List α
  | _, [], vol => vol
  | i, index :: rest, vol =>
    rmatvecLoop op M x (i + 1) rest
      (sliceAssign op.dims index vol
        ((op.fdct.inv
            ((x.drop (i * op.outputLen)).take ((i + 1) * op.outputLen - i * op.outputLen))).map
          (M.castTo op.dtype)))

/-- `FDCT._rmatvec`: allocates `np.zeros(self.dims, dtype=self.dtype)`, fills
one slice per iterator entry, and returns `inv_out.ravel()` (already flat in
the row-major model). -/
def FDCT.rmatvec {α : Type} (op : FDCT α) (M : NpModel α) (x : NDVec α) : NDVec α :=
  NDVec.mk op.dtype
    (rmatvecLoop op M x.data 0 op.iterator (List.replicate op.dims.prod (M.zeroOf op.dtype)))

/-- `FDCT._rmatvec` rewritten to take its per-slice coefficient buffers from an
explicit segment-reading function `coeff : slice index → buffer`; used to state
that the adjoint reads exactly the forward pass's segment boundaries. -/
def rmatvecSegLoop {α : Type} (op : FDCT α) (M : NpModel α) (coeff : Nat → List α) :
    Nat → List (List IndexEntry) → List α → List α
  | _, [], vol => vol
  | i, index :: rest, vol =>
    rmatvecSegLoop op M coeff (i + 1) rest
      (sliceAssign op.dims index vol ((op.fdct.inv (coeff i)).map (M.castTo op.dtype)))

/-- `FDCT._rmatvec` with abstract per-slice coefficient reads. -/
def FDCT.rmatvecSeg {α : Type} (op : FDCT α) (M : NpModel α) (coeff : Nat → List α) : NDVec α :=
  NDVec.mk op.dtype
    (rmatvecSegLoop op M coeff 0 op.iterator (List.replicate op.dims.prod (M.zeroOf op.dtype)))

/-- Shape of the destination slot `inv_out[index]` selected by a basic
multi-index: the extents of the colon-selected axes, in natural axis order. -/
def slotShape : List Nat → List IndexEntry → List Nat
  | _ :: ds, IndexEntry.idx _ :: rest => slotShape ds rest
  | d :: ds, IndexEntry.all :: rest => d :: slotShape ds rest
  | _, _ => []

/-- The numpy broadcast test for assigning a value of shape `v` into a
destination slot of shape `s`: shapes are right-aligned, any extra leading
axes of the value must have extent 1 (they are squeezed), and each aligned
value extent must equal the slot extent or be 1. -/
def broadcastsTo (v s : List Nat) : Bool :=
  (v.take (v.length - s.length)).all (fun a => a == 1) &&
    ((v.drop (v.length - s.length)).zip (s.drop (s.length - v.length))).all
      (fun p => p.1 == p.2 || p.1 == 1)

/-- Runtime numpy failures surfaced by `FDCT._rmatvec`: `reshapeError` when
`inv(...)` cannot be reshaped to `_input_shape_2d` (element-count mismatch),
`broadcastError` when the reshaped array cannot be broadcast into the
destination slot `inv_out[index]` (both are `ValueError`s in CPython). -/
inductive NpError
  | reshapeError
  | broadcastError
deriving DecidableEq, Repr

/-- The loop of `FDCT._rmatvec` with numpy's runtime shape checks made
explicit: `inv(x[i*n:(i+1)*n])` must have exactly `prod(_input_shape_2d)`
elements for the `reshape` to succeed, and the reshaped value's shape must
broadcast into the shape of the slot `inv_out[index]`.  On success the store
is the exact row-major write `sliceAssign`: the value shape
`_input_shape_2d` lists the active extents in `dirs` order while the slot
lists the distinct active extents in natural axis order.  With distinct
axes the two are equal-length permutations of each other, and a permutation
broadcasts only when the shapes are equal (an extent-1 stretch in one
position would force a second position where the slot has the 1 and the
value does not); with duplicated axes the slot is strictly shorter, so the
broadcast requires the duplicated leading extents to be 1 and every aligned
pair then also collapses to extent 1.  In either case no replicating store
is reachable, so the flat write is exact whenever the checks pass. -/
def rmatvecCheckedLoop {α : Type} (op : FDCT α) (M : NpModel α) (x : List α) :
    Nat → List (List IndexEntry) → List α → Except NpError (List α)
  | _, [], vol => Except.ok vol
  | i, index :: rest, vol =>
    if (op.fdct.inv
          ((x.drop (i * op.outputLen)).take
            ((i + 1) * op.outputLen - i * op.outputLen))).length
        = op.inputShape2d.prod then
      if broadcastsTo op.inputShape2d (slotShape op.dims index) then
        rmatvecCheckedLoop op M x (i + 1) rest
          (sliceAssign op.dims index vol
            ((op.fdct.inv ((x.drop (i * op.outputLen)).take
                ((i + 1) * op.outputLen - i * op.outputLen))).map (M.castTo op.dtype)))
      else Except.error NpError.broadcastError
    else Except.error NpError.reshapeError

/-- `FDCT._rmatvec` with numpy's runtime shape checks: returns the flat
adjoint result, or the `ValueError` CPython raises. -/
def FDCT.rmatvecChecked {α : Type} (op : FDCT α) (M : NpModel α) (x : NDVec α) :
    Except NpError (NDVec α) :=
  match rmatvecCheckedLoop op M x.data 0 op.iterator
      (List.replicate op.dims.prod (M.zeroOf op.dtype)) with
  | Except.ok data => Except.ok (NDVec.mk op.dtype data)
  | Except.error e => Except.error e

/-- `FDCT.inverse(self, x): return self._rmatvec(x)`. -/
def FDCT.inverse {α : Type} (op : FDCT α) (M : NpModel α) (x : NDVec α) : NDVec α :=
  op.rmatvec M x

/-- `FDCT2D.__init__`: raises `ValueError` unless exactly two directions are
given, then delegates to `FDCT.__init__`. -/
def fdct2dInit {α : Type} (mkBackend : Nat → List Nat → Int → Nat → Bool → Bool → Backend α)
    (dims : List Nat) (dirs : List Int) (nbscales : Option Int) (nbanglesCoarse : Nat)
    (allcurvelets : Bool) (dtype : DType) : Except FdctError (FDCT α) :=
  if dirs.length = 2 then
    fdctInit mkBackend dims dirs nbscales nbanglesCoarse allcurvelets dtype
  else
    Except.error FdctError.invalidAxisCount

/-- `FDCT3D.__init__`: raises `ValueError` unless exactly three directions are
given, then delegates to `FDCT.__init__`. -/
def fdct3dInit {α : Type} (mkBackend : Nat → List Nat → Int → Nat → Bool → Bool → Backend α)
    (dims : List Nat) (dirs : List Int) (nbscales : Option Int) (nbanglesCoarse : Nat)
    (allcurvelets : Bool) (dtype : DType) : Except FdctError (FDCT α) :=
  if dirs.length = 3 then
    fdctInit mkBackend dims dirs nbscales nbanglesCoarse allcurvelets dtype
  else
    Except.error FdctError.invalidAxisCount

/-- Extract the batch-axis coordinates of an index expression, in order
(the `SliceAddress` of the specification). -/
def batchTuple (index : List IndexEntry) : List Nat :=
  index.filterMap (fun e =>
    match e with
    | IndexEntry.idx k => some k
    | IndexEntry.all => none)

/-- First component of an `Except`, with a fallback (used to name the
operator produced by a concrete successful construction). -/
def exceptGetD {ε β : Type} (e : Except ε β) (dflt : β) : β :=
  match e with
  | Except.ok b => b
  | Except.error _ => dflt

/-- A small concrete backend over `Int` data: band shapes `[2]` and `[1,3]`
give a per-slice coefficient count of `2 + 3 = 5`; `fwd` always returns 5
coefficients and `inv` always returns a `2 × 2` slice. -/
def testBackend : Backend Int :=
  { sizes := [[[2], [1, 3]]]
    fwd := fun s => [s.headD 0, s.getD 1 0, 7, 8, 9]
    inv := fun c => [c.headD 0, c.getD 1 0, c.getD 2 0, c.getD 3 0] }

/-- Backend factory that ignores its configuration (a deterministic
stand-in for `ct.fdct2`/`ct.fdct3`). -/
def testMkB : Nat → List Nat → Int → Nat → Bool → Bool → Backend Int :=
  fun _ _ _ _ _ _ => testBackend

/-- Identity numeric semantics over `Int`: zero fill and cast-free stores. -/
def testM : NpModel Int :=
  { zeroOf := fun _ => 0
    castTo := fun _ v => v }

/-- Placeholder operator used only as the `exceptGetD` fallback. -/
def dummyFDCT : FDCT Int :=
  { dims := []
    dirs := []
    inputShape2d := []
    fdct := testBackend
    iterator := []
    outputLen := 0
    nbscales := 0
    nbanglesCoarse := 0
    allcurvelets := true
    cpx := true
    shape := (0, 0)
    dtype := DType.complex128 }

/-- Concrete operator: volume `(2,2,2)`, transform axes `(0,2)`, batch
axis `1` of extent 2. -/
def testOp : FDCT Int :=
  exceptGetD (fdctInit testMkB [2, 2, 2] [0, 2] (some 2) 16 true DType.complex128) dummyFDCT

/-- Concrete input for `testOp`: the flattened `(2,2,2)` volume. -/
def testX : NDVec Int :=
  NDVec.mk DType.complex128 [0, 1, 2, 3, 4, 5, 6, 7]

/-- Concrete degenerate operator: volume `(2,3)`, transform axes `(0,1)`,
no batch axes. -/
def test4Op : FDCT Int :=
  exceptGetD (fdctInit testMkB [2, 3] [0, 1] (some 2) 16 true DType.complex128) dummyFDCT

/-- Concrete input for `test4Op`: the flattened `(2,3)` volume. -/
def test4X : NDVec Int :=
  NDVec.mk DType.complex128 [10, 11, 12, 13, 14, 15]

/-- The operator produced by requesting the duplicated axes `(0,0)` on a
`(4,4)` volume — construction succeeds. -/
def c5Op : FDCT Int :=
  exceptGetD (fdctInit testMkB [4, 4] [0, 0] (some 2) 16 true DType.complex128) dummyFDCT

/-- Concrete operator for the negative-axis example: volume `(4,4,4)`,
transform axes `(-2,-1)`. -/
def c8Op : FDCT Int :=
  exceptGetD (fdctInit testMkB [4, 4, 4] [-2, -1] (some 2) 16 true DType.complex128) dummyFDCT

/-- Backend for the `(3,4)` example: `fwd` always returns 5 coefficients and
`inv` always `4*3 = 12` elements, so the `reshape` to
`_input_shape_2d = [4,3]` succeeds and the only failing check is the
broadcast of the `(4,3)` value into the `(3,4)` slot. -/
def bad34Backend : Backend Int :=
  { sizes := [[[5]]]
    fwd := fun s => [s.headD 0, 21, 22, 23, 24]
    inv := fun c => List.replicate 12 (c.headD 0) }

/-- Backend factory returning `bad34Backend` for every configuration. -/
def bad34MkB : Nat → List Nat → Int → Nat → Bool → Bool → Backend Int :=
  fun _ _ _ _ _ _ => bad34Backend

/-- Operator at the valid configuration `dims=(3,4)`, `dirs=(1,0)`:
construction succeeds with `_input_shape_2d = [4,3]` and a single all-colon
slice whose natural-order shape is `(3,4)`. -/
def c2BadOp : FDCT Int :=
  exceptGetD (fdctInit bad34MkB [3, 4] [1, 0] (some 2) 16 true DType.complex128) dummyFDCT

/-- Flattened `(3,4)` input for `c2BadOp`. -/
def c2BadX : NDVec Int :=
  NDVec.mk DType.complex128 [1, 2, 3, 4, 5, 6, 7, 8, 9, 10, 11, 12]

/-! ## Basic lemmas on `cartProd` -/

theorem sum_map_const {α : Type} (l : List α) (c : Nat) :
    (l.map (fun _ => c)).sum = l.length * c := by
  induction l with
  | nil => simp
  | cons a t ih => simp [ih, Nat.succ_mul, Nat.add_comm]

theorem cartProd_length {α : Type} (ls : List (List α)) :
    (cartProd ls).length = (ls.map List.length).prod := by
  induction ls with
  | nil => simp [cartProd]
  | cons xs rest ih =>
    simp only [cartProd, List.length_flatMap, List.map_cons, List.prod_cons]
    have h : ∀ x ∈ xs, (List.length ∘ fun x => (cartProd rest).map (fun t => x :: t)) x
        = (rest.map List.length).prod := by
      intro x _
      simp [ih]
    rw [List.map_congr_left h, sum_map_const]

theorem mem_cartProd {α : Type} :
    ∀ {ls : List (List α)} {t : List α},
      t ∈ cartProd ls ↔ List.Forall₂ (fun a l => a ∈ l) t ls := by
  intro ls
  induction ls with
  | nil =>
    intro t
    simp only [cartProd, List.mem_singleton, List.forall₂_nil_right_iff]
  | cons xs rest ih =>
    intro t
    simp only [cartProd, List.mem_flatMap, List.mem_map]
    constructor
    · rintro ⟨a, ha, s, hs, rfl⟩
      exact List.Forall₂.cons ha (ih.mp hs)
    · intro h
      cases h with
      | cons ha hs => exact ⟨_, ha, _, ih.mpr hs, rfl⟩

theorem cartProd_singletons {α β : Type} (g : α → β) (l : List α) :
    cartProd (l.map (fun x => [g x])) = [l.map g] := by
  induction l with
  | nil => rfl
  | cons a t ih => simp [cartProd, ih]

/-! ## Relating the iterator to the batch sub-grid enumeration -/

/-- `Choices cs rs` says each per-axis choice list in `cs` is either the
singleton `[slice(None)]` (an active axis, contributing nothing to the batch
tuple) or `range d` tagged with `idx` (a batch axis of extent `d`); `rs`
collects the `range d` lists of the batch axes, in order. -/
inductive Choices : List (List IndexEntry) → List (List Nat) → Prop
  | nil : Choices [] []
  | allC {cs rs} : Choices cs rs → Choices ([IndexEntry.all] :: cs) rs
  | rangeC (d : Nat) {cs rs} : Choices cs rs →
      Choices (((List.range d).map IndexEntry.idx) :: cs) (List.range d :: rs)

theorem choices_of_map (dims : List Nat) (dirs : List Nat) :
    ∀ l : List Nat,
      Choices
        (l.map (fun ax =>
          if dirs.contains ax then [IndexEntry.all]
          else (List.range (dims.getD ax 0)).map IndexEntry.idx))
        ((l.filter (fun i => ! dirs.contains i)).map (fun i => List.range (dims.getD i 0))) := by
  intro l
  induction l with
  | nil => exact Choices.nil
  | cons a t ih =>
    by_cases h : a ∈ dirs
    · simpa [h] using Choices.allC ih
    · simpa [h] using Choices.rangeC (dims.getD a 0) ih

theorem choices_axisChoices (dims : List Nat) (dirs : List Nat) :
    Choices (axisChoices dims dirs)
      ((batchAxes dims.length dirs).map (fun i => List.range (dims.getD i 0))) :=
  choices_of_map dims dirs (List.range dims.length)

theorem choices_map_batchTuple {cs : List (List IndexEntry)} {rs : List (List Nat)}
    (h : Choices cs rs) : (cartProd cs).map batchTuple = cartProd rs := by
  induction h with
  | nil => rfl
  | allC _ ih =>
    simp only [cartProd, List.flatMap_cons, List.flatMap_nil, List.append_nil,
      List.map_map]
    have : batchTuple ∘ (fun t => IndexEntry.all :: t) = batchTuple := by
      funext t
      simp [batchTuple]
    rw [this, ih]
  | rangeC d _ ih =>
    simp only [cartProd, List.map_flatMap, List.flatMap_map, List.map_map]
    apply List.flatMap_congr
    intro j _
    have : batchTuple ∘ (fun t => IndexEntry.idx j :: t)
        = (fun t => j :: t) ∘ batchTuple := by
      funext t
      simp [batchTuple]
    rw [this, ← List.map_map, ih]

theorem pairwise_lex_cartProd :
    ∀ (rs : List (List Nat)), (∀ r ∈ rs, List.Pairwise (· < ·) r) →
      List.Pairwise (List.Lex (· < ·)) (cartProd rs) := by
  intro rs
  induction rs with
  | nil =>
    intro _
    simp [cartProd]
  | cons r rest ih =>
    intro h
    have hr : List.Pairwise (· < ·) r := h r (by simp)
    have hrest : List.Pairwise (List.Lex (· < ·)) (cartProd rest) :=
      ih (fun s hs => h s (by simp [hs]))
    simp only [cartProd]
    rw [List.pairwise_flatMap]
    refine ⟨?_, ?_⟩
    · intro x _
      rw [List.pairwise_map]
      exact hrest.imp (fun hlex => List.Lex.cons hlex)
    · refine hr.imp ?_
      intro a b hab s hs t ht
      rw [List.mem_map] at hs ht
      obtain ⟨u, _, rfl⟩ := hs
      obtain ⟨v, _, rfl⟩ := ht
      exact List.Lex.rel hab

theorem iterator_map_batchTuple (dims : List Nat) (dirs : List Nat) :
    (buildIterator dims dirs).map batchTuple
      = cartProd ((batchAxes dims.length dirs).map (fun i => List.range (dims.getD i 0))) :=
  choices_map_batchTuple (choices_axisChoices dims dirs)

theorem iterator_length (dims : List Nat) (dirs : List Nat) :
    (buildIterator dims dirs).length = batchCount dims dirs := by
  have h := congrArg List.length (iterator_map_batchTuple dims dirs)
  rw [List.length_map, cartProd_length, List.map_map] at h
  rw [h, batchCount]
  congr 1
  apply List.map_congr_left
  intro a _
  simp

theorem iterator_pairwise_lex (dims : List Nat) (dirs : List Nat) :
    List.Pairwise (fun s t => List.Lex (· < ·) (batchTuple s) (batchTuple t))
      (buildIterator dims dirs) := by
  have h : List.Pairwise (List.Lex (· < ·)) ((buildIterator dims dirs).map batchTuple) := by
    rw [iterator_map_batchTuple]
    apply pairwise_lex_cartProd
    intro r hr
    rw [List.mem_map] at hr
    obtain ⟨i, _, rfl⟩ := hr
    exact List.pairwise_lt_range _
  exact List.pairwise_map.mp h

/-! ## Well-formedness of the iterator's index expressions -/

theorem forall2_choices_wf (full : List Nat) (dirs : List Nat) :
    ∀ (ds : List Nat) (offs : Nat), full.drop offs = ds →
      ∀ index : List IndexEntry,
        List.Forall₂ (fun a l => a ∈ l) index
          ((List.range' offs ds.length).map (fun ax =>
            if dirs.contains ax then [IndexEntry.all]
            else (List.range (full.getD ax 0)).map IndexEntry.idx)) →
        wfIndex ds index ∧
          extractLen ds index
            = (((List.range' offs ds.length).filter (fun i => dirs.contains i)).map
                (fun i => full.getD i 0)).prod := by
  intro ds
  induction ds with
  | nil =>
    intro offs _ index h
    have hidx : index = [] := by
      simp only [List.length_nil, show List.range' offs 0 = [] from rfl, List.map_nil,
        List.forall₂_nil_right_iff] at h
      exact h
    subst hidx
    simp [wfIndex, extractLen, show List.range' offs 0 = [] from rfl]
  | cons d dtl ih =>
    intro offs hdrop index h
    have hd : full.getD offs 0 = d := by
      have h1 : (full.drop offs)[0]? = some d := by rw [hdrop]; simp
      rw [List.getElem?_drop] at h1
      simp only [Nat.add_zero] at h1
      simp [List.getD_eq_getElem?_getD, h1]
    have hdrop' : full.drop (offs + 1) = dtl := by
      have h2 : List.drop 1 (full.drop offs) = dtl := by rw [hdrop]; simp
      rwa [List.drop_drop] at h2
    simp only [List.length_cons, List.range'_succ, List.map_cons] at h
    rw [show List.range' offs (d :: dtl).length = offs :: List.range' (offs + 1) dtl.length
      by rw [List.length_cons, List.range'_succ]]
    cases h with
    | cons ha htail =>
      rename_i a rest
      have hrec := ih (offs + 1) hdrop' rest htail
      by_cases hc : offs ∈ dirs
      · have hc' : dirs.contains offs = true := by simpa using hc
        rw [if_pos hc'] at ha
        rw [List.mem_singleton] at ha
        subst ha
        refine ⟨hrec.1, ?_⟩
        rw [List.filter_cons, if_pos hc']
        simp only [List.map_cons, List.prod_cons, hd]
        rw [show extractLen (d :: dtl) (IndexEntry.all :: rest) = d * extractLen dtl rest
          from rfl]
        rw [hrec.2]
      · have hc' : dirs.contains offs = false := by
          simpa using hc
        rw [if_neg (by rw [hc']; exact Bool.false_ne_true)] at ha
        rw [hd] at ha
        rw [List.mem_map] at ha
        obtain ⟨k, hk, rfl⟩ := ha
        rw [List.mem_range] at hk
        refine ⟨⟨hk, hrec.1⟩, ?_⟩
        rw [List.filter_cons, if_neg (by rw [hc']; exact Bool.false_ne_true)]
        rw [show extractLen (d :: dtl) (IndexEntry.idx k :: rest) = extractLen dtl rest
          from rfl]
        exact hrec.2

theorem mem_iterator_wf {dims dirs : List Nat} {index : List IndexEntry}
    (h : index ∈ buildIterator dims dirs) :
    wfIndex dims index ∧
      extractLen dims index
        = (((List.range dims.length).filter (fun i => dirs.contains i)).map
            (fun i => dims.getD i 0)).prod := by
  rw [buildIterator, mem_cartProd, axisChoices, List.range_eq_range'] at h
  rw [List.range_eq_range']
  exact forall2_choices_wf dims dirs dims 0 (by simp) index h

/-! ## The forward pass writes consecutive segments -/

theorem length_flatten_const {α : Type} (n : Nat) :
    ∀ fs : List (List α), (∀ b ∈ fs, b.length = n) → fs.flatten.length = fs.length * n := by
  intro fs h
  rw [List.length_flatten, List.map_congr_left (fun b hb => h b hb), sum_map_const]

theorem segment_flatten {α : Type} (n : Nat) :
    ∀ (fs : List (List α)) (i : Nat), (∀ b ∈ fs, b.length = n) → i < fs.length →
      segment fs.flatten i n = fs.getD i [] := by
  intro fs
  induction fs with
  | nil => intro i _ hi; exact absurd hi (by simp)
  | cons b t ih =>
    intro i hlen hi
    cases i with
    | zero =>
      have hb : b.length = n := hlen b (by simp)
      rw [segment, List.flatten_cons, Nat.zero_mul, List.drop_zero, ← hb, List.take_left]
      rfl
    | succ i =>
      have hb : b.length = n := hlen b (by simp)
      rw [segment, List.flatten_cons]
      rw [show (i + 1) * n = b.length + i * n by rw [hb, Nat.succ_mul, Nat.add_comm]]
      rw [List.drop_append]
      rw [show (t.flatten.drop (i * n)).take n = segment t.flatten i n from rfl]
      rw [ih i (fun c hc => hlen c (by simp [hc])) (by simpa using hi)]
      rfl

theorem matvecLoop_eq {α : Type} (op : FDCT α) (M : NpModel α) (x : List α) :
    ∀ (l : List (List IndexEntry)) (k : Nat) (buf : List α),
      (∀ index ∈ l, (op.fdct.fwd (sliceExtract op.dims index x)).length = op.outputLen) →
      buf.length = (k + l.length) * op.outputLen →
      matvecLoop op M x k l buf
        = buf.take (k * op.outputLen)
          ++ (l.map (fun index =>
              (op.fdct.fwd (sliceExtract op.dims index x)).map (M.castTo op.dtype))).flatten := by
  intro l
  induction l with
  | nil =>
    intro k buf _ hbuf
    simp only [List.length_nil, Nat.add_zero] at hbuf
    rw [matvecLoop, List.map_nil, List.flatten_nil, List.append_nil,
      List.take_of_length_le (le_of_eq hbuf)]
  | cons index rest ih =>
    intro k buf hfwd hbuf
    set n := op.outputLen with hn
    set v := (op.fdct.fwd (sliceExtract op.dims index x)).map (M.castTo op.dtype) with hv
    have hvlen : v.length = n := by
      rw [hv, List.length_map]
      exact hfwd index (by simp)
    have hkn : k * n ≤ buf.length := by
      rw [hbuf]
      exact Nat.mul_le_mul_right n (by omega)
    have hbuf' : (assignSeg buf (k * n) ((k + 1) * n) v).length = (k + 1 + rest.length) * n := by
      rw [assignSeg]
      simp only [List.length_append, List.length_take, List.length_drop]
      rw [Nat.min_eq_left hkn, hvlen, hbuf]
      have : (k + (rest.length + 1)) * n = (k + 1) * n + rest.length * n := by ring
      rw [List.length_cons, this, Nat.add_sub_cancel_left]
      ring
    rw [matvecLoop, ih (k + 1) _ (fun j hj => hfwd j (by simp [hj])) (by rw [hbuf'])]
    have htake : (assignSeg buf (k * n) ((k + 1) * n) v).take ((k + 1) * n)
        = buf.take (k * n) ++ v := by
      rw [assignSeg, List.append_assoc]
      have hlt : (buf.take (k * n)).length = k * n := by
        rw [List.length_take, Nat.min_eq_left hkn]
      rw [show (k + 1) * n = (buf.take (k * n)).length + n by rw [hlt]; ring]
      rw [List.take_append]
      rw [← hvlen, List.take_left]
    rw [htake, List.map_cons, List.flatten_cons, List.append_assoc]

theorem matvec_data {α : Type} (op : FDCT α) (M : NpModel α) (x : NDVec α)
    (hshape : op.shape.1 = op.iterator.length * op.outputLen)
    (hfwd : ∀ index ∈ op.iterator,
      (op.fdct.fwd (sliceExtract op.dims index x.data)).length = op.outputLen) :
    (op.matvec M x).data
      = (op.iterator.map (fun index =>
          (op.fdct.fwd (sliceExtract op.dims index x.data)).map (M.castTo op.dtype))).flatten := by
  rw [FDCT.matvec]
  rw [matvecLoop_eq op M x.data op.iterator 0 _ hfwd
    (by rw [List.length_replicate, hshape, Nat.zero_add])]
  rw [Nat.zero_mul, List.take_zero, List.nil_append]

/-! ## The adjoint pass preserves the volume's length -/

theorem sliceAssign_length {α : Type} :
    ∀ (ds : List Nat) (index : List IndexEntry) (vol vals : List α),
      wfIndex ds index → vol.length = ds.prod → vals.length = extractLen ds index →
      (sliceAssign ds index vol vals).length = ds.prod := by
  intro ds
  induction ds with
  | nil =>
    intro index vol vals hwf _ hvals
    cases index with
    | nil => simpa [sliceAssign, extractLen] using hvals
    | cons e rest => exact absurd hwf (by simp [wfIndex])
  | cons d dtl ih =>
    intro index vol vals hwf hvol hvals
    cases index with
    | nil => exact absurd hwf (by simp [wfIndex])
    | cons e rest =>
      cases e with
      | idx k =>
        obtain ⟨hk, hwf'⟩ := hwf
        have h1 : (k + 1) * dtl.prod = k * dtl.prod + dtl.prod := by ring
        have h2 : (k + 1) * dtl.prod ≤ d * dtl.prod := Nat.mul_le_mul_right _ hk
        have hblock : ((vol.drop (k * dtl.prod)).take dtl.prod).length = dtl.prod := by
          rw [List.length_take, List.length_drop, hvol, List.prod_cons]
          omega
        have hlen1 : (vol.take (k * dtl.prod)).length = k * dtl.prod := by
          rw [List.length_take, hvol, List.prod_cons]
          omega
        have hlen3 : (vol.drop ((k + 1) * dtl.prod)).length
            = d * dtl.prod - (k + 1) * dtl.prod := by
          rw [List.length_drop, hvol, List.prod_cons]
        rw [sliceAssign, List.length_append, List.length_append,
          ih rest _ vals hwf' hblock (by simpa [extractLen] using hvals), hlen1, hlen3,
          List.prod_cons]
        omega
      | all =>
        have hwf' : wfIndex dtl rest := hwf
        rw [sliceAssign, List.length_flatMap]
        have hcong : ∀ j ∈ List.range d,
            (List.length ∘ fun j =>
              sliceAssign dtl rest ((vol.drop (j * dtl.prod)).take dtl.prod)
                ((vals.drop (j * extractLen dtl rest)).take (extractLen dtl rest))) j
              = dtl.prod := by
          intro j hj
          rw [List.mem_range] at hj
          have h1 : (j + 1) * dtl.prod = j * dtl.prod + dtl.prod := by ring
          have h2 : (j + 1) * dtl.prod ≤ d * dtl.prod := Nat.mul_le_mul_right _ hj
          have hblock : ((vol.drop (j * dtl.prod)).take dtl.prod).length = dtl.prod := by
            rw [List.length_take, List.length_drop, hvol, List.prod_cons]
            omega
          have hvals' : vals.length = d * extractLen dtl rest := by
            rw [hvals]; rfl
          have h3 : (j + 1) * extractLen dtl rest
              = j * extractLen dtl rest + extractLen dtl rest := by ring
          have h4 : (j + 1) * extractLen dtl rest ≤ d * extractLen dtl rest :=
            Nat.mul_le_mul_right _ hj
          have hchunk : ((vals.drop (j * extractLen dtl rest)).take
              (extractLen dtl rest)).length = extractLen dtl rest := by
            rw [List.length_take, List.length_drop, hvals']
            omega
          exact ih rest _ _ hwf' hblock hchunk
        rw [List.map_congr_left hcong, sum_map_const, List.length_range, List.prod_cons]

theorem rmatvecSegLoop_length {α : Type} (op : FDCT α) (M : NpModel α)
    (coeff : Nat → List α)
    (hwf : ∀ index ∈ op.iterator, wfIndex op.dims index)
    (hext : ∀ index ∈ op.iterator, extractLen op.dims index = op.inputShape2d.prod)
    (hinv : ∀ cs : List α, (op.fdct.inv cs).length = op.inputShape2d.prod) :
    ∀ (l : List (List IndexEntry)) (k : Nat) (vol : List α),
      (∀ index ∈ l, index ∈ op.iterator) → vol.length = op.dims.prod →
      (rmatvecSegLoop op M coeff k l vol).length = op.dims.prod := by
  intro l
  induction l with
  | nil => intro k vol _ hvol; simpa [rmatvecSegLoop] using hvol
  | cons index rest ih =>
    intro k vol hmem hvol
    rw [rmatvecSegLoop]
    apply ih (k + 1) _ (fun j hj => hmem j (by simp [hj]))
    apply sliceAssign_length op.dims index vol _ (hwf index (hmem index (by simp))) hvol
    rw [List.length_map, hinv, hext index (hmem index (by simp))]

theorem rmatvecLoop_eq_seg {α : Type} (op : FDCT α) (M : NpModel α) (x : List α) :
    ∀ (l : List (List IndexEntry)) (k : Nat) (vol : List α),
      rmatvecLoop op M x k l vol
        = rmatvecSegLoop op M (fun i => segment x i op.outputLen) k l vol := by
  intro l
  induction l with
  | nil => intro k vol; rfl
  | cons index rest ih =>
    intro k vol
    rw [rmatvecLoop, rmatvecSegLoop, ih]
    congr 2
    rw [segment]
    congr 1
    have : (k + 1) * op.outputLen - k * op.outputLen = op.outputLen := by ring_nf; omega
    rw [this]

/-- The adjoint apply reads its per-slice coefficients from exactly the
segments `[i*n, (i+1)*n)` of its input. -/
theorem rmatvec_eq_rmatvecSeg {α : Type} (op : FDCT α) (M : NpModel α) (x : NDVec α) :
    op.rmatvec M x = op.rmatvecSeg M (fun i => segment x.data i op.outputLen) := by
  rw [FDCT.rmatvec, FDCT.rmatvecSeg, rmatvecLoop_eq_seg]

/-- When every per-slice reshape and broadcast check passes, the checked
adjoint loop succeeds and agrees with the unchecked loop. -/
theorem rmatvecCheckedLoop_ok {α : Type} (op : FDCT α) (M : NpModel α) (x : List α)
    (hinv : ∀ c, (op.fdct.inv c).length = op.inputShape2d.prod) :
    ∀ (l : List (List IndexEntry)) (k : Nat) (vol : List α),
      (∀ index ∈ l, broadcastsTo op.inputShape2d (slotShape op.dims index) = true) →
      rmatvecCheckedLoop op M x k l vol = Except.ok (rmatvecLoop op M x k l vol) := by
  intro l
  induction l with
  | nil => intro k vol _; rfl
  | cons index rest ih =>
    intro k vol hbc
    rw [rmatvecCheckedLoop, if_pos (hinv _), if_pos (hbc index (by simp)), rmatvecLoop]
    exact ih (k + 1) _ (fun j hj => hbc j (by simp [hj]))

/-- When every per-slice shape check passes, `_rmatvec` raises no
`ValueError` and the checked adjoint returns the unchecked result. -/
theorem rmatvecChecked_eq_ok {α : Type} (op : FDCT α) (M : NpModel α) (x : NDVec α)
    (hinv : ∀ c, (op.fdct.inv c).length = op.inputShape2d.prod)
    (hbc : ∀ index ∈ op.iterator,
      broadcastsTo op.inputShape2d (slotShape op.dims index) = true) :
    op.rmatvecChecked M x = Except.ok (op.rmatvec M x) := by
  rw [FDCT.rmatvecChecked, rmatvecCheckedLoop_ok op M x.data hinv op.iterator 0 _ hbc]
  rfl

/-! ## The degenerate all-active slice is the full volume -/

theorem chunks_flatten {α : Type} :
    ∀ (d : Nat) (b : Nat) (data : List α), data.length = d * b →
      (List.range d).flatMap (fun j => (data.drop (j * b)).take b) = data := by
  intro d
  induction d with
  | zero =>
    intro b data hlen
    simp only [Nat.zero_mul] at hlen
    rw [List.length_eq_zero] at hlen
    simp [hlen]
  | succ d ih =>
    intro b data hlen
    rw [List.range_succ, List.flatMap_append]
    have hdb : d * b ≤ data.length := by
      rw [hlen, Nat.succ_mul]
      omega
    have hfront : (List.range d).flatMap (fun j => (data.drop (j * b)).take b)
        = (List.range d).flatMap (fun j => ((data.take (d * b)).drop (j * b)).take b) := by
      apply List.flatMap_congr
      intro j hj
      rw [List.mem_range] at hj
      rw [List.drop_take]
      rw [List.take_take]
      congr 1
      have h1 : (j + 1) * b = j * b + b := by ring
      have h2 : (j + 1) * b ≤ d * b := Nat.mul_le_mul_right _ hj
      omega
    rw [hfront, ih b (data.take (d * b)) (by rw [List.length_take]; omega)]
    have hback : (data.drop (d * b)).take b = data.drop (d * b) := by
      apply List.take_of_length_le
      rw [List.length_drop, hlen, Nat.succ_mul]
      omega
    simp only [List.flatMap_cons, List.flatMap_nil, List.append_nil, hback]
    exact List.take_append_drop (d * b) data

theorem sliceExtract_full {α : Type} :
    ∀ (dims : List Nat) (data : List α), data.length = dims.prod →
      sliceExtract dims (List.replicate dims.length IndexEntry.all) data = data := by
  intro dims
  induction dims with
  | nil => intro data _; rfl
  | cons d ds ih =>
    intro data hlen
    rw [List.length_cons, List.replicate_succ, sliceExtract]
    rw [List.prod_cons] at hlen
    have hcong : ∀ j ∈ List.range d,
        sliceExtract ds (List.replicate ds.length IndexEntry.all)
            ((data.drop (j * ds.prod)).take ds.prod)
          = (data.drop (j * ds.prod)).take ds.prod := by
      intro j hj
      rw [List.mem_range] at hj
      apply ih
      rw [List.length_take, List.length_drop, hlen]
      have h1 : (j + 1) * ds.prod = j * ds.prod + ds.prod := by ring
      have h2 : (j + 1) * ds.prod ≤ d * ds.prod := Nat.mul_le_mul_right _ hj
      omega
    rw [List.flatMap_congr hcong]
    exact chunks_flatten d ds.prod data hlen

/-! ## Normalization of axis indices -/

theorem normalizeAxisIndex_ok {d : Int} {ndim : Nat} {a : Nat}
    (h : normalizeAxisIndex d ndim = Except.ok a) :
    a = (if d < 0 then d + (ndim : Int) else d).toNat ∧ a < ndim := by
  rw [normalizeAxisIndex] at h
  by_cases hbad : d < -(ndim : Int) ∨ (ndim : Int) ≤ d
  · rw [if_pos hbad] at h
    exact absurd h (by simp)
  · rw [if_neg hbad] at h
    push_neg at hbad
    by_cases hneg : d < 0
    · rw [if_pos hneg] at h
      cases h
      refine ⟨by rw [if_pos hneg], ?_⟩
      omega
    · rw [if_neg hneg] at h
      cases h
      refine ⟨by rw [if_neg hneg], ?_⟩
      omega

theorem normalizeAxisIndex_error {d : Int} {ndim : Nat} {e : FdctError}
    (h : normalizeAxisIndex d ndim = Except.error e) : e = FdctError.axisOutOfRange := by
  rw [normalizeAxisIndex] at h
  by_cases hbad : d < -(ndim : Int) ∨ (ndim : Int) ≤ d
  · rw [if_pos hbad] at h
    cases h
    rfl
  · rw [if_neg hbad] at h
    by_cases hneg : d < 0
    · rw [if_pos hneg] at h; exact absurd h (by simp)
    · rw [if_neg hneg] at h; exact absurd h (by simp)

theorem normalizeAxisIndex_ok_of_inRange {d : Int} {ndim : Nat}
    (h : -(ndim : Int) ≤ d ∧ d < ndim) :
    normalizeAxisIndex d ndim
      = Except.ok (if d < 0 then d + (ndim : Int) else d).toNat := by
  rw [normalizeAxisIndex, if_neg (by omega)]
  by_cases hneg : d < 0
  · rw [if_pos hneg, if_pos hneg]
  · rw [if_neg hneg, if_neg hneg]

theorem normalizeAxes_ok_map {ndim : Nat} :
    ∀ {dirs : List Int}, (∀ d ∈ dirs, -(ndim : Int) ≤ d ∧ d < ndim) →
      normalizeAxes ndim dirs
        = Except.ok (dirs.map (fun d => (if d < 0 then d + (ndim : Int) else d).toNat)) := by
  intro dirs
  induction dirs with
  | nil => intro _; rfl
  | cons d rest ih =>
    intro h
    rw [normalizeAxes, normalizeAxisIndex_ok_of_inRange (h d (by simp)),
      ih (fun a ha => h a (by simp [ha]))]
    rfl

theorem normalizeAxes_ok_inv {ndim : Nat} :
    ∀ {dirs : List Int} {ndirs : List Nat},
      normalizeAxes ndim dirs = Except.ok ndirs →
      ndirs = dirs.map (fun d => (if d < 0 then d + (ndim : Int) else d).toNat)
        ∧ ∀ a ∈ ndirs, a < ndim := by
  intro dirs
  induction dirs with
  | nil =>
    intro ndirs h
    rw [normalizeAxes] at h
    cases h
    exact ⟨rfl, by simp⟩
  | cons d rest ih =>
    intro ndirs h
    rw [normalizeAxes] at h
    cases hhead : normalizeAxisIndex d ndim with
    | error e => rw [hhead] at h; exact absurd h (by simp)
    | ok a =>
      rw [hhead] at h
      cases htail : normalizeAxes ndim rest with
      | error e => rw [htail] at h; exact absurd h (by simp)
      | ok as =>
        rw [htail] at h
        cases h
        obtain ⟨hmap, hlt⟩ := ih htail
        obtain ⟨hval, hbound⟩ := normalizeAxisIndex_ok hhead
        constructor
        · rw [List.map_cons, ← hmap, hval]
        · intro b hb
          rw [List.mem_cons] at hb
          cases hb with
          | inl hb => exact hb ▸ hbound
          | inr hb => exact hlt b hb

theorem normalizeAxes_error_of_bad {ndim : Nat} :
    ∀ {dirs : List Int}, (∃ d ∈ dirs, d < -(ndim : Int) ∨ (ndim : Int) ≤ d) →
      normalizeAxes ndim dirs = Except.error FdctError.axisOutOfRange := by
  intro dirs
  induction dirs with
  | nil => intro h; exact absurd h (by simp)
  | cons d rest ih =>
    intro h
    rw [normalizeAxes]
    cases hhead : normalizeAxisIndex d ndim with
    | error e => rw [normalizeAxisIndex_error hhead]
    | ok a =>
      obtain ⟨b, hb, hbad⟩ := h
      rw [List.mem_cons] at hb
      cases hb with
      | inl hb =>
        subst hb
        rw [normalizeAxisIndex, if_pos hbad] at hhead
        exact absurd hhead (by simp)
      | inr hb =>
        rw [ih ⟨b, hb, hbad⟩]

/-! ## Segment boundary arithmetic -/

theorem segSet_disjoint {i j n : Nat} (h : i ≠ j) : Disjoint (segSet i n) (segSet j n) := by
  rw [Finset.disjoint_left]
  intro a hai haj
  rw [segSet, Finset.mem_Ico] at hai haj
  rcases Nat.lt_or_ge i j with hij | hij
  · have : (i + 1) * n ≤ j * n := Nat.mul_le_mul_right n hij
    omega
  · have hji : j < i := by omega
    have : (j + 1) * n ≤ i * n := Nat.mul_le_mul_right n hji
    omega

theorem segSet_cover (count n : Nat) :
    (Finset.range count).biUnion (fun i => segSet i n) = Finset.Ico 0 (count * n) := by
  induction count with
  | zero => simp
  | succ c ih =>
    rw [Finset.range_succ, Finset.biUnion_insert, ih, segSet]
    rw [Finset.union_comm]
    rw [Finset.Ico_union_Ico_eq_Ico (by omega) (by
      have : c * n ≤ (c + 1) * n := Nat.mul_le_mul_right n (by omega)
      omega)]

/-! ## Inverting a successful construction -/

theorem fdctInit_ok_inv {α : Type}
    {mkB : Nat → List Nat → Int → Nat → Bool → Bool → Backend α}
    {dims : List Nat} {dirs : List Int} {nbs : Option Int} {nba : Nat} {ac : Bool}
    {dt : DType} {op : FDCT α}
    (h : fdctInit mkB dims dirs nbs nba ac dt = Except.ok op) :
    (dirs.length = 2 ∨ dirs.length = 3) ∧
      ∃ ndirs, normalizeAxes dims.length dirs = Except.ok ndirs ∧
        op = mkFDCT mkB dims dirs.length ndirs nbs nba ac dt := by
  rw [fdctInit] at h
  by_cases hlen : dirs.length = 2 ∨ dirs.length = 3
  · rw [if_pos hlen] at h
    cases hn : normalizeAxes dims.length dirs with
    | error e => rw [hn] at h; exact absurd h (by simp)
    | ok ndirs =>
      rw [hn] at h
      cases h
      exact ⟨hlen, ndirs, rfl, rfl⟩
  · rw [if_neg hlen] at h
    exact absurd h (by simp)

theorem mkFDCT_dims {α : Type} (mkB : Nat → List Nat → Int → Nat → Bool → Bool → Backend α)
    (dims : List Nat) (dl : Nat) (ndirs : List Nat) (nbs : Option Int) (nba : Nat)
    (ac : Bool) (dt : DType) :
    (mkFDCT mkB dims dl ndirs nbs nba ac dt).dims = dims := rfl

theorem mkFDCT_dirs {α : Type} (mkB : Nat → List Nat → Int → Nat → Bool → Bool → Backend α)
    (dims : List Nat) (dl : Nat) (ndirs : List Nat) (nbs : Option Int) (nba : Nat)
    (ac : Bool) (dt : DType) :
    (mkFDCT mkB dims dl ndirs nbs nba ac dt).dirs = ndirs := rfl

theorem mkFDCT_inputShape2d {α : Type}
    (mkB : Nat → List Nat → Int → Nat → Bool → Bool → Backend α)
    (dims : List Nat) (dl : Nat) (ndirs : List Nat) (nbs : Option Int) (nba : Nat)
    (ac : Bool) (dt : DType) :
    (mkFDCT mkB dims dl ndirs nbs nba ac dt).inputShape2d
      = ndirs.map (fun d => dims.getD d 0) := rfl

theorem mkFDCT_iterator {α : Type}
    (mkB : Nat → List Nat → Int → Nat → Bool → Bool → Backend α)
    (dims : List Nat) (dl : Nat) (ndirs : List Nat) (nbs : Option Int) (nba : Nat)
    (ac : Bool) (dt : DType) :
    (mkFDCT mkB dims dl ndirs nbs nba ac dt).iterator = buildIterator dims ndirs := rfl

theorem mkFDCT_outputLen {α : Type}
    (mkB : Nat → List Nat → Int → Nat → Bool → Bool → Backend α)
    (dims : List Nat) (dl : Nat) (ndirs : List Nat) (nbs : Option Int) (nba : Nat)
    (ac : Bool) (dt : DType) :
    (mkFDCT mkB dims dl ndirs nbs nba ac dt).outputLen
      = (mkFDCT mkB dims dl ndirs nbs nba ac dt).fdct.outputLen := rfl

theorem mkFDCT_shape {α : Type}
    (mkB : Nat → List Nat → Int → Nat → Bool → Bool → Backend α)
    (dims : List Nat) (dl : Nat) (ndirs : List Nat) (nbs : Option Int) (nba : Nat)
    (ac : Bool) (dt : DType) :
    (mkFDCT mkB dims dl ndirs nbs nba ac dt).shape
      = (batchCount dims ndirs * (mkFDCT mkB dims dl ndirs nbs nba ac dt).outputLen,
         dims.prod) := rfl

/-- For an operator built by `fdctInit`, the declared output length equals
the iterator length times the per-slice length. -/
theorem fdctInit_shape1 {α : Type}
    {mkB : Nat → List Nat → Int → Nat → Bool → Bool → Backend α}
    {dims : List Nat} {dirs : List Int} {nbs : Option Int} {nba : Nat} {ac : Bool}
    {dt : DType} {op : FDCT α}
    (h : fdctInit mkB dims dirs nbs nba ac dt = Except.ok op) :
    op.shape.1 = op.iterator.length * op.outputLen := by
  obtain ⟨_, ndirs, _, rfl⟩ := fdctInit_ok_inv h
  rw [mkFDCT_shape, mkFDCT_iterator, iterator_length]

/-! ## Remaining auxiliary lemmas -/

theorem getD_map_lt {α β : Type} (f : α → β) {l : List α} {i : Nat} (hi : i < l.length)
    (d0 : α) (d1 : β) : (l.map f).getD i d1 = f (l.getD i d0) := by
  rw [List.getD_eq_getElem?_getD, List.getD_eq_getElem?_getD, List.getElem?_map,
    List.getElem?_eq_getElem hi]
  rfl

/-- Products over the active axes: selecting `dims` along the ascending
filter of active axes or along the (duplicate-free) `ndirs` themselves gives
the same product. -/
theorem filter_active_prod {dims : List Nat} {ndirs : List Nat}
    (hnd : ndirs.Nodup) (hlt : ∀ a ∈ ndirs, a < dims.length) :
    (((List.range dims.length).filter (fun i => ndirs.contains i)).map
        (fun i => dims.getD i 0)).prod
      = (ndirs.map (fun d => dims.getD d 0)).prod := by
  apply List.Perm.prod_eq
  apply List.Perm.map
  rw [List.perm_ext_iff_of_nodup (List.Nodup.filter _ (List.nodup_range _)) hnd]
  intro a
  rw [List.mem_filter, List.mem_range]
  constructor
  · rintro ⟨_, hc⟩
    simpa using hc
  · intro ha
    exact ⟨hlt a ha, by simpa using ha⟩

/-- When every axis is active, the iterator is the single all-colon index. -/
theorem buildIterator_all_active {dims : List Nat} {dirs : List Nat}
    (hcov : batchAxes dims.length dirs = []) :
    buildIterator dims dirs = [List.replicate dims.length IndexEntry.all] := by
  rw [buildIterator, axisChoices]
  have hall : ∀ ax ∈ List.range dims.length, dirs.contains ax = true := by
    intro ax hax
    rw [batchAxes, List.filter_eq_nil_iff] at hcov
    have := hcov ax hax
    simpa using this
  have hmap : (List.range dims.length).map (fun ax =>
      if dirs.contains ax then [IndexEntry.all]
      else (List.range (dims.getD ax 0)).map IndexEntry.idx)
      = (List.range dims.length).map (fun _ => [IndexEntry.all]) := by
    apply List.map_congr_left
    intro ax hax
    rw [if_pos (hall ax hax)]
  rw [hmap, cartProd_singletons (fun _ => IndexEntry.all)]
  congr 1
  rw [show ((fun _ => IndexEntry.all : Nat → IndexEntry))
      = Function.const Nat IndexEntry.all from rfl]
  rw [List.map_const, List.length_range]

theorem batchCount_all_active {dims : List Nat} {dirs : List Nat}
    (hcov : batchAxes dims.length dirs = []) : batchCount dims dirs = 1 := by
  rw [batchCount, hcov]
  rfl

/-! ## The claims -/

/-- C5 counterexample: requesting the duplicated axes `(0,0)` on a `(4,4)`
volume does not signal a `DuplicateAxis` failure — construction succeeds,
because `FDCT.__init__` never checks for repeated normalized axes. -/
theorem duplicate_axes_no_failure :
    fdctInit testMkB [4, 4] [0, 0] (some 2) 16 true DType.complex128
      ≠ Except.error FdctError.duplicateAxis := by
  intro h
  rw [show fdctInit testMkB [4, 4] [0, 0] (some 2) 16 true DType.complex128
      = Except.ok c5Op from rfl] at h
  exact Except.noConfusion h

/-- C5 (amended): construction performs no duplicate-axis check — for every
requested axis sequence of length 2 or 3 whose entries are all within
`[-ndim, ndim)`, construction succeeds even when normalization produces
repeated entries. -/
theorem construction_accepts_duplicates {α : Type}
    (mkB : Nat → List Nat → Int → Nat → Bool → Bool → Backend α)
    (dims : List Nat) (dirs : List Int) (nbs : Option Int) (nba : Nat) (ac : Bool)
    (dt : DType)
    (hlen : dirs.length = 2 ∨ dirs.length = 3)
    (hin : ∀ d ∈ dirs, -(dims.length : Int) ≤ d ∧ d < dims.length) :
    fdctInit mkB dims dirs nbs nba ac dt
      = Except.ok (mkFDCT mkB dims dirs.length
          (dirs.map (fun d => (if d < 0 then d + (dims.length : Int) else d).toNat))
          nbs nba ac dt) := by
  rw [fdctInit, if_pos hlen, normalizeAxes_ok_map hin]

/-- C5 witness: `dirs = (0,0)` on a `(4,4)` volume is accepted and produces
the operator with the duplicated normalized axes `[0,0]`. -/
theorem construction_accepts_duplicates_witness :
    fdctInit testMkB [4, 4] [0, 0] (some 2) 16 true DType.complex128
      = Except.ok (mkFDCT testMkB [4, 4] ([0, 0] : List Int).length
          (([0, 0] : List Int).map
            (fun d => (if d < 0 then d + ((([4, 4] : List Nat).length : Nat) : Int)
              else d).toNat))
          (some 2) 16 true DType.complex128) :=
  construction_accepts_duplicates testMkB [4, 4] [0, 0] (some 2) 16 true
    DType.complex128 (by decide) (by decide)

/-- C6: for every requested axis sequence whose length is neither 2 nor 3,
construction fails with the invalid-axis-count error, at configuration time,
before the backend is ever consulted (the result is the same for every
backend factory) — so no output buffer can be partially written. -/
theorem invalid_axis_count_eager {α : Type}
    (mkB : Nat → List Nat → Int → Nat → Bool → Bool → Backend α)
    (dims : List Nat) (dirs : List Int) (nbs : Option Int) (nba : Nat) (ac : Bool)
    (dt : DType)
    (hlen : dirs.length ≠ 2 ∧ dirs.length ≠ 3) :
    fdctInit mkB dims dirs nbs nba ac dt = Except.error FdctError.invalidAxisCount
      ∧ fdct2dInit mkB dims dirs nbs nba ac dt = Except.error FdctError.invalidAxisCount
      ∧ fdct3dInit mkB dims dirs nbs nba ac dt
          = Except.error FdctError.invalidAxisCount := by
  refine ⟨?_, ?_, ?_⟩
  · rw [fdctInit, if_neg (by tauto)]
  · rw [fdct2dInit, if_neg hlen.1]
  · rw [fdct3dInit, if_neg hlen.2]

/-- C6 witness: the length-1 request `dirs = (0,)` is rejected with the
invalid-axis-count failure by `FDCT`, `FDCT2D` and `FDCT3D` alike. -/
theorem invalid_axis_count_eager_witness :
    fdctInit testMkB [4, 4] [0] (some 2) 16 true DType.complex128
        = Except.error FdctError.invalidAxisCount
      ∧ fdct2dInit testMkB [4, 4] [0] (some 2) 16 true DType.complex128
          = Except.error FdctError.invalidAxisCount
      ∧ fdct3dInit testMkB [4, 4] [0] (some 2) 16 true DType.complex128
          = Except.error FdctError.invalidAxisCount :=
  invalid_axis_count_eager testMkB [4, 4] [0] (some 2) 16 true DType.complex128
    (by decide)

/-- C7: for every axis sequence of length 2 or 3 containing an entry whose
normalized value falls outside `[0, ndim)`, construction fails with the
axis-out-of-range error. -/
theorem axis_out_of_range_failure {α : Type}
    (mkB : Nat → List Nat → Int → Nat → Bool → Bool → Backend α)
    (dims : List Nat) (dirs : List Int) (nbs : Option Int) (nba : Nat) (ac : Bool)
    (dt : DType)
    (hlen : dirs.length = 2 ∨ dirs.length = 3)
    (hbad : ∃ d ∈ dirs, d < -(dims.length : Int) ∨ (dims.length : Int) ≤ d) :
    fdctInit mkB dims dirs nbs nba ac dt = Except.error FdctError.axisOutOfRange := by
  rw [fdctInit, if_pos hlen, normalizeAxes_error_of_bad hbad]

/-- C7 witness: `dirs = (5,6)` on a 2-D volume is rejected as out of range. -/
theorem axis_out_of_range_failure_witness :
    fdctInit testMkB [4, 4] [5, 6] (some 2) 16 true DType.complex128
      = Except.error FdctError.axisOutOfRange :=
  axis_out_of_range_failure testMkB [4, 4] [5, 6] (some 2) 16 true DType.complex128
    (by decide) (by decide)

/-- C8: normalization adds `ndim` to negative entries, preserves the
caller's relative ordering (entry `k` of the normalized axes comes from
entry `k` of the request), feeds the backend the shape selected in exactly
that order, and the batch axes are the strictly ascending complement of the
active axes within `[0, ndim)`. -/
theorem axis_normalization {α : Type}
    {mkB : Nat → List Nat → Int → Nat → Bool → Bool → Backend α}
    {dims : List Nat} {dirs : List Int} {nbs : Option Int} {nba : Nat} {ac : Bool}
    {dt : DType} {op : FDCT α}
    (hop : fdctInit mkB dims dirs nbs nba ac dt = Except.ok op) :
    op.dirs = dirs.map (fun d => (if d < 0 then d + (dims.length : Int) else d).toNat)
      ∧ op.inputShape2d = op.dirs.map (fun a => dims.getD a 0)
      ∧ List.Pairwise (· < ·) (batchAxes dims.length op.dirs)
      ∧ ∀ i, i ∈ batchAxes dims.length op.dirs ↔ i < dims.length ∧ i ∉ op.dirs := by
  obtain ⟨hlen, ndirs, hn, rfl⟩ := fdctInit_ok_inv hop
  obtain ⟨hmap, _⟩ := normalizeAxes_ok_inv hn
  refine ⟨?_, ?_, ?_, ?_⟩
  · rw [mkFDCT_dirs, hmap]
  · rw [mkFDCT_inputShape2d, mkFDCT_dirs]
  · exact List.Pairwise.sublist (List.filter_sublist _) (List.pairwise_lt_range _)
  · intro i
    rw [batchAxes, List.mem_filter, List.mem_range, mkFDCT_dirs]
    simp

/-- C8 witness: `dirs = (-2,-1)` on a `(4,4,4)` volume normalizes to `(1,2)`
with batch axis `0`, and the backend shape follows `(1,2)` order. -/
theorem axis_normalization_witness :
    c8Op.dirs = ([-2, -1] : List Int).map
        (fun d => (if d < 0 then d + ((([4, 4, 4] : List Nat).length : Nat) : Int)
          else d).toNat)
      ∧ c8Op.inputShape2d = c8Op.dirs.map (fun a => ([4, 4, 4] : List Nat).getD a 0)
      ∧ List.Pairwise (· < ·) (batchAxes ([4, 4, 4] : List Nat).length c8Op.dirs)
      ∧ ∀ i, i ∈ batchAxes ([4, 4, 4] : List Nat).length c8Op.dirs ↔
          i < ([4, 4, 4] : List Nat).length ∧ i ∉ c8Op.dirs :=
  @axis_normalization Int testMkB [4, 4, 4] [-2, -1] (some 2) 16 true DType.complex128 c8Op rfl

/-- C1: per-slice segmentation. For every constructed operator and slice
index `i`, the forward apply writes slice `i`'s coefficient buffer into the
output positions `[i*n, (i+1)*n)`; the adjoint apply reads its per-slice
coefficients from exactly those segments of its input; and for `i ≠ j` the
segments are disjoint and together cover `[0, batchSliceCount*n)`. -/
theorem segment_layout_invariant {α : Type}
    {mkB : Nat → List Nat → Int → Nat → Bool → Bool → Backend α}
    {dims : List Nat} {dirs : List Int} {nbs : Option Int} {nba : Nat} {ac : Bool}
    {dt : DType} {op : FDCT α} (M : NpModel α) (x : NDVec α)
    (hop : fdctInit mkB dims dirs nbs nba ac dt = Except.ok op)
    (hfwd : ∀ s, (op.fdct.fwd s).length = op.outputLen) :
    (∀ i, i < batchCount op.dims op.dirs →
        segment (op.matvec M x).data i op.outputLen
          = (op.fdct.fwd (sliceExtract op.dims (op.iterator.getD i []) x.data)).map
              (M.castTo op.dtype))
      ∧ (∀ y : NDVec α, op.rmatvec M y
          = op.rmatvecSeg M (fun i => segment y.data i op.outputLen))
      ∧ (∀ i j, i ≠ j → Disjoint (segSet i op.outputLen) (segSet j op.outputLen))
      ∧ (Finset.range (batchCount op.dims op.dirs)).biUnion (fun i => segSet i op.outputLen)
          = Finset.Ico 0 (batchCount op.dims op.dirs * op.outputLen) := by
  obtain ⟨hlen, ndirs, hn, hopEq⟩ := fdctInit_ok_inv hop
  have hdims : op.dims = dims := by rw [hopEq, mkFDCT_dims]
  have hdirs : op.dirs = ndirs := by rw [hopEq, mkFDCT_dirs]
  have hiter : op.iterator = buildIterator dims ndirs := by rw [hopEq, mkFDCT_iterator]
  have hcount : op.iterator.length = batchCount op.dims op.dirs := by
    rw [hiter, hdims, hdirs, iterator_length]
  refine ⟨?_, rmatvec_eq_rmatvecSeg op M, fun i j hij => segSet_disjoint hij,
    segSet_cover _ _⟩
  intro i hi
  have hdata := matvec_data op M x (fdctInit_shape1 hop) (fun index _ => hfwd _)
  rw [hdata]
  have hlens : ∀ b ∈ op.iterator.map (fun index =>
      (op.fdct.fwd (sliceExtract op.dims index x.data)).map (M.castTo op.dtype)),
      b.length = op.outputLen := by
    intro b hb
    rw [List.mem_map] at hb
    obtain ⟨index, _, rfl⟩ := hb
    rw [List.length_map]
    exact hfwd _
  have hi' : i < op.iterator.length := by rw [hcount]; exact hi
  rw [segment_flatten op.outputLen _ i hlens (by rw [List.length_map]; exact hi')]
  exact getD_map_lt _ hi' [] []

/-- C2 counterexample: at the valid configuration `dims=(3,4)`,
`dirs=(1,0)` (distinct in-range axes, backend honouring its length
contract), the adjoint apply of the forward result does not return a
vector of length `∏ dims` — `_rmatvec` raises a numpy `ValueError`, because
the value reshaped to `_input_shape_2d = (4,3)` cannot be broadcast into
the `(3,4)` slot `inv_out[:, :]`. -/
theorem adjoint_broadcast_failure :
    c2BadOp.rmatvecChecked testM (c2BadOp.matvec testM c2BadX)
      = Except.error NpError.broadcastError := rfl

/-- C2 (amended): declared shape and apply lengths. The operator's shape is
`(batchSliceCount * perSliceLength, ∏ dims)` with `perSliceLength` the sum
of all band sizes reported by the backend, and the forward apply of an input
of length `∏ dims` has length `batchSliceCount * perSliceLength`; when
additionally each slice's reshaped value shape (`_input_shape_2d`, in
`activeAxes` order) broadcasts into its destination slot shape (the active
extents in natural axis order) — in particular whenever the two orders
agree, e.g. for ascending `activeAxes` — the adjoint apply of the forward
result raises no shape error and returns a vector of length `∏ dims`. -/
theorem shape_roundtrip {α : Type}
    {mkB : Nat → List Nat → Int → Nat → Bool → Bool → Backend α}
    {dims : List Nat} {dirs : List Int} {nbs : Option Int} {nba : Nat} {ac : Bool}
    {dt : DType} {op : FDCT α} (M : NpModel α) (x : NDVec α)
    (hop : fdctInit mkB dims dirs nbs nba ac dt = Except.ok op)
    (hnd : op.dirs.Nodup)
    (hfwd : ∀ s, (op.fdct.fwd s).length = op.outputLen)
    (hinv : ∀ c, (op.fdct.inv c).length = op.inputShape2d.prod)
    (hbc : ∀ index ∈ op.iterator,
      broadcastsTo op.inputShape2d (slotShape op.dims index) = true)
    (_hx : x.data.length = op.dims.prod) :
    op.shape = (batchCount op.dims op.dirs * op.outputLen, op.dims.prod)
      ∧ op.outputLen = op.fdct.outputLen
      ∧ (op.matvec M x).data.length = batchCount op.dims op.dirs * op.outputLen
      ∧ op.rmatvecChecked M (op.matvec M x)
          = Except.ok (op.rmatvec M (op.matvec M x))
      ∧ (op.rmatvec M (op.matvec M x)).data.length = op.dims.prod := by
  obtain ⟨hlen, ndirs, hn, hopEq⟩ := fdctInit_ok_inv hop
  obtain ⟨hmap, hbnd⟩ := normalizeAxes_ok_inv hn
  have hdims : op.dims = dims := by rw [hopEq, mkFDCT_dims]
  have hdirs : op.dirs = ndirs := by rw [hopEq, mkFDCT_dirs]
  have hiter : op.iterator = buildIterator dims ndirs := by rw [hopEq, mkFDCT_iterator]
  have hinp : op.inputShape2d = ndirs.map (fun d => dims.getD d 0) := by
    rw [hopEq, mkFDCT_inputShape2d]
  have hout : op.outputLen = op.fdct.outputLen := by rw [hopEq, mkFDCT_outputLen]
  have hcount : op.iterator.length = batchCount op.dims op.dirs := by
    rw [hiter, hdims, hdirs, iterator_length]
  have hwf : ∀ index ∈ op.iterator, wfIndex op.dims index := by
    intro index hmem
    rw [hiter] at hmem
    rw [hdims]
    exact (mem_iterator_wf hmem).1
  have hext : ∀ index ∈ op.iterator, extractLen op.dims index = op.inputShape2d.prod := by
    intro index hmem
    rw [hiter] at hmem
    rw [hdims, hinp]
    rw [(mem_iterator_wf hmem).2]
    exact filter_active_prod (hdirs ▸ hnd) hbnd
  refine ⟨?_, hout, ?_, rmatvecChecked_eq_ok op M _ hinv hbc, ?_⟩
  · rw [hopEq, mkFDCT_shape, mkFDCT_dims, mkFDCT_dirs]
  · rw [matvec_data op M x (fdctInit_shape1 hop) (fun index _ => hfwd _)]
    rw [length_flatten_const op.outputLen _ (by
      intro b hb
      rw [List.mem_map] at hb
      obtain ⟨index, _, rfl⟩ := hb
      rw [List.length_map]
      exact hfwd _)]
    rw [List.length_map, hcount]
  · rw [rmatvec_eq_rmatvecSeg, FDCT.rmatvecSeg]
    exact rmatvecSegLoop_length op M _ hwf hext hinv op.iterator 0 _
      (fun index hmem => hmem) (List.length_replicate _ _)

/-- C3: slice enumeration. The iterator contains exactly
`∏ fullDims[a], a ∈ batchAxes` index expressions; its batch tuples are the
row-major Cartesian product over the batch axes in ascending axis order
(last axis fastest), hence strictly lexicographically increasing; and any
two constructions from the same arguments produce the identical sequence —
the forward and adjoint passes both fold over this one stored iterator. -/
theorem slice_enumeration {α : Type}
    {mkB : Nat → List Nat → Int → Nat → Bool → Bool → Backend α}
    {dims : List Nat} {dirs : List Int} {nbs : Option Int} {nba : Nat} {ac : Bool}
    {dt : DType} {op : FDCT α}
    (hop : fdctInit mkB dims dirs nbs nba ac dt = Except.ok op) :
    op.iterator.length = batchCount op.dims op.dirs
      ∧ op.iterator.map batchTuple
          = cartProd ((batchAxes op.dims.length op.dirs).map
              (fun a => List.range (op.dims.getD a 0)))
      ∧ List.Pairwise (fun s t => List.Lex (· < ·) (batchTuple s) (batchTuple t))
          op.iterator
      ∧ ∀ op' : FDCT α, fdctInit mkB dims dirs nbs nba ac dt = Except.ok op' →
          op'.iterator = op.iterator := by
  obtain ⟨hlen, ndirs, hn, hopEq⟩ := fdctInit_ok_inv hop
  have hdims : op.dims = dims := by rw [hopEq, mkFDCT_dims]
  have hdirs : op.dirs = ndirs := by rw [hopEq, mkFDCT_dirs]
  have hiter : op.iterator = buildIterator dims ndirs := by rw [hopEq, mkFDCT_iterator]
  refine ⟨?_, ?_, ?_, ?_⟩
  · rw [hiter, hdims, hdirs, iterator_length]
  · rw [hiter, hdims, hdirs, iterator_map_batchTuple]
  · rw [hiter]
    exact iterator_pairwise_lex dims ndirs
  · intro op' hop'
    obtain ⟨_, ndirs', hn', hopEq'⟩ := fdctInit_ok_inv hop'
    rw [hn] at hn'
    cases hn'
    rw [hopEq, hopEq']

/-- C4: degenerate batch. When the active axes cover all dimensions (no
batch axes), the slice count is 1 and the same pipeline produces, as forward
output, the backend's direct transform of the full volume (exactly, whenever
storing into the output buffer does not alter values). -/
theorem degenerate_batch {α : Type}
    {mkB : Nat → List Nat → Int → Nat → Bool → Bool → Backend α}
    {dims : List Nat} {dirs : List Int} {nbs : Option Int} {nba : Nat} {ac : Bool}
    {dt : DType} {op : FDCT α} (M : NpModel α) (x : NDVec α)
    (hop : fdctInit mkB dims dirs nbs nba ac dt = Except.ok op)
    (hcov : batchAxes op.dims.length op.dirs = [])
    (hfwd : ∀ s, (op.fdct.fwd s).length = op.outputLen)
    (hx : x.data.length = op.dims.prod) :
    batchCount op.dims op.dirs = 1
      ∧ (op.matvec M x).data = (op.fdct.fwd x.data).map (M.castTo op.dtype)
      ∧ ((∀ v, M.castTo op.dtype v = v) → (op.matvec M x).data = op.fdct.fwd x.data) := by
  obtain ⟨hlen, ndirs, hn, hopEq⟩ := fdctInit_ok_inv hop
  have hdims : op.dims = dims := by rw [hopEq, mkFDCT_dims]
  have hiter : op.iterator = buildIterator dims ndirs := by rw [hopEq, mkFDCT_iterator]
  have hdirs : op.dirs = ndirs := by rw [hopEq, mkFDCT_dirs]
  rw [hdims, hdirs] at hcov
  rw [hdims] at hx
  have hdata := matvec_data op M x (fdctInit_shape1 hop) (fun index _ => hfwd _)
  rw [hiter, buildIterator_all_active hcov] at hdata
  rw [hdims] at hdata
  simp only [List.map_cons, List.map_nil, List.flatten_cons, List.flatten_nil,
    List.append_nil] at hdata
  rw [sliceExtract_full dims x.data hx] at hdata
  refine ⟨?_, hdata, ?_⟩
  · rw [hdims, hdirs]
    exact batchCount_all_active hcov
  · intro hid
    rw [hdata, List.map_congr_left (fun v _ => hid v)]
    simp

/-- C1 witness: the segment layout invariant at the concrete `(2,2,2)`
operator with active axes `(0,2)` and two batch slices. -/
theorem segment_layout_invariant_witness :
    (∀ i, i < batchCount testOp.dims testOp.dirs →
        segment (testOp.matvec testM testX).data i testOp.outputLen
          = (testOp.fdct.fwd
              (sliceExtract testOp.dims (testOp.iterator.getD i []) testX.data)).map
              (testM.castTo testOp.dtype))
      ∧ (∀ y : NDVec Int, testOp.rmatvec testM y
          = testOp.rmatvecSeg testM (fun i => segment y.data i testOp.outputLen))
      ∧ (∀ i j, i ≠ j → Disjoint (segSet i testOp.outputLen) (segSet j testOp.outputLen))
      ∧ (Finset.range (batchCount testOp.dims testOp.dirs)).biUnion
            (fun i => segSet i testOp.outputLen)
          = Finset.Ico 0 (batchCount testOp.dims testOp.dirs * testOp.outputLen) :=
  @segment_layout_invariant Int testMkB [2, 2, 2] [0, 2] (some 2) 16 true
    DType.complex128 testOp testM testX rfl (fun _ => rfl)

/-- C2 witness: shape and round-trip lengths at the concrete `(2,2,2)`
operator (`shape = (2*5, 8)`), whose two slots both have shape `(2,2)`
matching `_input_shape_2d`, so the adjoint raises no shape error. -/
theorem shape_roundtrip_witness :
    testOp.shape = (batchCount testOp.dims testOp.dirs * testOp.outputLen,
        testOp.dims.prod)
      ∧ testOp.outputLen = testOp.fdct.outputLen
      ∧ (testOp.matvec testM testX).data.length
          = batchCount testOp.dims testOp.dirs * testOp.outputLen
      ∧ testOp.rmatvecChecked testM (testOp.matvec testM testX)
          = Except.ok (testOp.rmatvec testM (testOp.matvec testM testX))
      ∧ (testOp.rmatvec testM (testOp.matvec testM testX)).data.length
          = testOp.dims.prod :=
  @shape_roundtrip Int testMkB [2, 2, 2] [0, 2] (some 2) 16 true DType.complex128
    testOp testM testX rfl (by decide) (fun _ => rfl) (fun _ => rfl) (by decide) rfl

/-- C3 witness: the enumeration properties at the concrete `(2,2,2)`
operator — two addresses, `[0]` before `[1]`. -/
theorem slice_enumeration_witness :
    testOp.iterator.length = batchCount testOp.dims testOp.dirs
      ∧ testOp.iterator.map batchTuple
          = cartProd ((batchAxes testOp.dims.length testOp.dirs).map
              (fun a => List.range (testOp.dims.getD a 0)))
      ∧ List.Pairwise (fun s t => List.Lex (· < ·) (batchTuple s) (batchTuple t))
          testOp.iterator
      ∧ ∀ op' : FDCT Int,
          fdctInit testMkB [2, 2, 2] [0, 2] (some 2) 16 true DType.complex128
            = Except.ok op' → op'.iterator = testOp.iterator :=
  @slice_enumeration Int testMkB [2, 2, 2] [0, 2] (some 2) 16 true DType.complex128
    testOp rfl

/-- C4 witness: the degenerate `(2,3)` operator with active axes `(0,1)` has
one slice and forwards the whole volume to the backend. -/
theorem degenerate_batch_witness :
    batchCount test4Op.dims test4Op.dirs = 1
      ∧ (test4Op.matvec testM test4X).data
          = (test4Op.fdct.fwd test4X.data).map (testM.castTo test4Op.dtype)
      ∧ ((∀ v, testM.castTo test4Op.dtype v = v) →
          (test4Op.matvec testM test4X).data = test4Op.fdct.fwd test4X.data) :=
  @degenerate_batch Int testMkB [2, 3] [0, 1] (some 2) 16 true DType.complex128
    test4Op testM test4X rfl rfl (fun _ => rfl) rfl

/-- C9: the exposed `inverse` operation is exactly the adjoint apply — no
additional computation or scaling. -/
theorem inverse_eq_rmatvec {α : Type} (op : FDCT α) (M : NpModel α) (x : NDVec α) :
    op.inverse M x = op.rmatvec M x := rfl

/-- C10: forward and adjoint results always carry the operator's declared
dtype (both output buffers are allocated by `np.zeros(..., dtype=self.dtype)`),
regardless of the dtype of the input vector. -/
theorem apply_preserves_dtype {α : Type} (op : FDCT α) (M : NpModel α) (x : NDVec α) :
    (op.matvec M x).dtype = op.dtype ∧ (op.rmatvec M x).dtype = op.dtype :=
  ⟨rfl, rfl⟩

end PyctLops
